import Mathlib

/-!
Verification of `rl_utils.py`: a fixed-capacity experience replay buffer,
a moving-average smoother, two training-loop drivers and a generalized
advantage estimation helper.  Python floats are modelled as rationals,
`numpy` arrays and Python lists as Lean lists, and raised exceptions
(`ValueError`) as `Option.none` results.
-/

set_option autoImplicit false

universe u

/-- One `(state, action, reward, next_state, done)` record, as appended by
`ReplayBuffer.add` and produced by `env.step`.  States and actions are opaque
numeric data; we model them as rationals. -/
structure Transition where
  state : ℚ
  action : ℚ
  reward : ℚ
  next_state : ℚ
  done : Bool
  deriving DecidableEq, Repr

instance : Inhabited Transition := ⟨⟨0, 0, 0, 0, false⟩⟩

/-- `self.buffer = collections.deque(maxlen=capacity)`: a bounded FIFO queue.
`buffer` holds the retained elements oldest-first; `capacity` is the deque's
`maxlen`. -/
structure ReplayBuffer (α : Type u) where
  capacity : ℕ
  buffer : List α
  deriving DecidableEq, Repr

namespace ReplayBuffer

variable {α : Type u}

/-- `ReplayBuffer.__init__(capacity)`: builds `collections.deque(maxlen=capacity)`.
Python's `deque` raises `ValueError` when `maxlen` is negative (modelled as
`none`) and otherwise starts empty; `maxlen=0` is accepted and yields a deque
that retains nothing. -/
def init (capacity : ℤ) : Option (ReplayBuffer α) :=
  if capacity < 0 then none else some ⟨capacity.toNat, []⟩

/-- `ReplayBuffer.add`: `self.buffer.append(t)`.  A `deque` with `maxlen`
discards the oldest (leftmost) element when an append would exceed `maxlen`. -/
def add (b : ReplayBuffer α) (t : α) : ReplayBuffer α :=
  ⟨b.capacity,
    if b.capacity < (b.buffer ++ [t]).length then
      (b.buffer ++ [t]).drop ((b.buffer ++ [t]).length - b.capacity)
    else b.buffer ++ [t]⟩

/-- `ReplayBuffer.size`: `len(self.buffer)`. -/
def size (b : ReplayBuffer α) : ℕ :=
  b.buffer.length

/-- `ReplayBuffer.sample(batch_size)`: `random.sample(self.buffer, batch_size)`
followed by `zip(*transitions)` and decomposition into five aligned columns.
The random draw is modelled by the index list `draw` chosen by the RNG
(`random.sample` guarantees `draw` lists `batch_size` distinct valid indices).
`random.sample` raises `ValueError` when `batch_size` exceeds the population
(modelled as `none`), and unpacking `zip(*transitions)` raises `ValueError`
when no transition was drawn. -/
def sampledTransitions (b : ReplayBuffer Transition) (draw : List ℕ) : List Transition :=
  draw.filterMap fun i => b.buffer.get? i

/-- The guard and decomposition of `ReplayBuffer.sample`; `sampledTransitions`
is the local `transitions` variable. -/
def sample (b : ReplayBuffer Transition) (batch_size : ℕ) (draw : List ℕ) :
    Option (List ℚ × List ℚ × List ℚ × List ℚ × List Bool) :=
  if b.buffer.length < batch_size then none
  else if (b.sampledTransitions draw).isEmpty then none
  else some ((b.sampledTransitions draw).map Transition.state,
    (b.sampledTransitions draw).map Transition.action,
    (b.sampledTransitions draw).map Transition.reward,
    (b.sampledTransitions draw).map Transition.next_state,
    (b.sampledTransitions draw).map Transition.done)

/-- `sample` as a state transformer: the method body only reads `self.buffer`,
so the post-call state is the pre-call state. -/
def sampleS (b : ReplayBuffer Transition) (batch_size : ℕ) (draw : List ℕ) :
    Option (List ℚ × List ℚ × List ℚ × List ℚ × List Bool) × ReplayBuffer Transition :=
  (b.sample batch_size draw, b)

/-- `size` as a state transformer: the method body only reads `self.buffer`. -/
def sizeS (b : ReplayBuffer α) : ℕ × ReplayBuffer α :=
  (b.size, b)

end ReplayBuffer

/-- Loop body of `compute_advantage`: updates the running `advantage` and
appends it to `advantage_list`. -/
def advStep (gamma lmbda : ℚ) (p : ℚ × List ℚ) (delta : ℚ) : ℚ × List ℚ :=
  (gamma * lmbda * p.1 + delta, p.2 ++ [gamma * lmbda * p.1 + delta])

/-- `compute_advantage(gamma, lmbda, td_delta)`: iterates over
`td_delta[::-1]` with `advantage = gamma * lmbda * advantage + delta`
starting from `advantage = 0.0`, appending each value, then reverses the
accumulated list. -/
def compute_advantage (gamma lmbda : ℚ) (td_delta : List ℚ) : List ℚ :=
  (td_delta.reverse.foldl (advStep gamma lmbda) (0, [])).2.reverse

/-- `np.cumsum`: the running partial sums of the input (same length). -/
def cumsum (l : List ℚ) : List ℚ :=
  (List.range l.length).map fun i => (l.take (i + 1)).sum

/-- `np.arange(start, stop, step)` over naturals, as rationals. -/
def arange (start stop step : ℕ) : List ℚ :=
  (List.range ((stop - start + (step - 1)) / step)).map fun i => ((start + step * i : ℕ) : ℚ)

/-- Extended slicing `x[::2]`: every second element, starting at index 0. -/
def everyOther {α : Type u} : List α → List α
  | [] => []
  | [x] => [x]
  | x :: _ :: rest => x :: everyOther rest

/-- Element-wise division of two 1-D `numpy` arrays with broadcasting: the
lengths must agree, or one operand must have length 1 (it is then broadcast
against the other).  `none` models the `ValueError` raised on incompatible
shapes. -/
def broadcastDiv (x y : List ℚ) : Option (List ℚ) :=
  if x.length = y.length then some (List.zipWith (fun u v => u / v) x y)
  else if x.length = 1 then some (y.map fun v => x.headD 0 / v)
  else if y.length = 1 then some (x.map fun u => u / y.headD 1)
  else none

/-- `moving_average(a, window_size)`:
`cumulative_sum = np.cumsum(np.insert(a, 0, 0))`,
`middle = (cumulative_sum[window_size:] - cumulative_sum[:-window_size]) / window_size`,
`r = np.arange(1, window_size-1, 2)`,
`begin = np.cumsum(a[:window_size-1])[::2] / r`,
`end = (np.cumsum(a[:-window_size:-1])[::2] / r)[::-1]`,
result `np.concatenate((begin, middle, end))`.
The Python slice `a[:-window_size:-1]` is the reversed suffix of the last
`window_size - 1` elements, i.e. `(a.drop (a.length - (window_size - 1))).reverse`. -/
def moving_average (a : List ℚ) (window_size : ℕ) : Option (List ℚ) :=
  (broadcastDiv (everyOther (cumsum (a.take (window_size - 1))))
      (arange 1 (window_size - 1) 2)).bind fun begin_part =>
    (broadcastDiv (everyOther (cumsum ((a.drop (a.length - (window_size - 1))).reverse)))
        (arange 1 (window_size - 1) 2)).bind fun end_part =>
      some (begin_part
        ++ List.zipWith (fun x y => (x - y) / (window_size : ℚ))
            ((cumsum (0 :: a)).drop window_size)
            ((cumsum (0 :: a)).take ((cumsum (0 :: a)).length - window_size))
        ++ end_part.reverse)

/-- The smoothing formula as the spec states it, for odd windows: the leading
`(window_size-1)/2` outputs are the cumulative sums of the first `1, 3, 5, …`
elements divided by those odd counts, the interior outputs are the
`window_size`-wide window means, and the trailing outputs mirror the leading
formula on the reversed sequence. -/
def movingAverageSpec (a : List ℚ) (window_size : ℕ) : List ℚ :=
  ((List.range ((window_size - 1) / 2)).map fun j =>
      (a.take (2 * j + 1)).sum / ((2 * j + 1 : ℕ) : ℚ))
    ++ ((List.range (a.length + 1 - window_size)).map fun i =>
          ((a.drop i).take window_size).sum / (window_size : ℚ))
    ++ (((List.range ((window_size - 1) / 2)).map fun j =>
          (a.reverse.take (2 * j + 1)).sum / ((2 * j + 1 : ℕ) : ℚ)).reverse)

/-- `episode_return`: the `episode_return += reward` accumulation over one
episode's transitions. -/
def episodeReturn (steps : List Transition) : ℚ :=
  steps.foldl (fun acc t => acc + t.reward) 0

/-- `train_on_policy_agent(env, agent, num_episodes)`.  The agent/environment
interaction of the k-th episode is modelled by the oracle `env k`, the finite
list of transitions generated before `done` is returned (the `while not done`
loop runs exactly once per transition).  `agent.update` and the progress bar
do not touch `return_list`, so they contribute nothing to the model.  The
driver runs `10` chunks of `int(num_episodes/10)` episodes each and appends
each episode's accumulated return to `return_list`. -/
def train_on_policy_agent (env : ℕ → List Transition) (num_episodes : ℕ) : List ℚ :=
  (List.range 10).foldl
    (fun return_list i =>
      (List.range (num_episodes / 10)).foldl
        (fun rl i_episode =>
          rl ++ [episodeReturn (env (i * (num_episodes / 10) + i_episode))])
        return_list)
    []

/-- One episode of the off-policy driver: every transition is pushed into the
replay buffer (`replay_buffer.add`) while the reward is accumulated
(`episode_return += reward`).  The guarded `replay_buffer.sample` /
`agent.update` calls only read the buffer (see `ReplayBuffer.sampleS`), so
they do not contribute to the driver's state. -/
def runOffPolicyEpisode (p : ℚ × ReplayBuffer Transition) (steps : List Transition) :
    ℚ × ReplayBuffer Transition :=
  steps.foldl (fun q t => (q.1 + t.reward, q.2.add t)) p

/-- `train_off_policy_agent(env, agent, num_episodes, replay_buffer,
minimal_size, batch_size)`: same loop structure as the on-policy driver, but
each transition is pushed into the replay buffer.  `minimal_size` and
`batch_size` only gate the read-only sampling calls. -/
def train_off_policy_agent (env : ℕ → List Transition) (num_episodes : ℕ)
    (replay_buffer : ReplayBuffer Transition) (minimal_size batch_size : ℕ) :
    List ℚ × ReplayBuffer Transition :=
  (List.range 10).foldl
    (fun st i =>
      (List.range (num_episodes / 10)).foldl
        (fun st2 i_episode =>
          let ep := runOffPolicyEpisode (0, st2.2) (env (i * (num_episodes / 10) + i_episode))
          (st2.1 ++ [ep.1], ep.2))
        st)
    ([], replay_buffer)

/-! ## Helper lemmas -/

namespace ReplayBuffer

variable {α : Type u}

theorem add_buffer_eq (b : ReplayBuffer α) (t : α) :
    (b.add t).buffer = (b.buffer ++ [t]).drop ((b.buffer ++ [t]).length - b.capacity) := by
  show (if b.capacity < (b.buffer ++ [t]).length then
      (b.buffer ++ [t]).drop ((b.buffer ++ [t]).length - b.capacity)
    else b.buffer ++ [t]) = _
  by_cases h : b.capacity < (b.buffer ++ [t]).length
  · rw [if_pos h]
  · rw [if_neg h, Nat.sub_eq_zero_of_le (Nat.le_of_not_lt h), List.drop_zero]

theorem add_capacity_eq (b : ReplayBuffer α) (t : α) :
    (b.add t).capacity = b.capacity := by
  unfold add
  rfl

/-- Trimming to the last `c` elements, appending, and trimming again is the
same as appending and trimming once. -/
theorem drop_append_drop (A ts : List α) (c : ℕ) :
    ((A.drop (A.length - c)) ++ ts).drop (((A.drop (A.length - c)) ++ ts).length - c)
      = (A ++ ts).drop ((A ++ ts).length - c) := by
  rw [← List.drop_append_of_le_length (Nat.sub_le A.length c), List.drop_drop]
  congr 1
  simp only [List.length_drop, List.length_append]
  omega

/-- After folding `add` over `ts` the retained contents are the suffix of
`b.buffer ++ ts` that fits in the capacity. -/
theorem foldl_add_buffer (ts : List α) (b : ReplayBuffer α)
    (h : b.buffer.length ≤ b.capacity) :
    (ts.foldl add b).buffer
      = (b.buffer ++ ts).drop ((b.buffer ++ ts).length - b.capacity) ∧
    (ts.foldl add b).capacity = b.capacity := by
  induction ts generalizing b with
  | nil =>
    constructor
    · simp [Nat.sub_eq_zero_of_le, h]
    · rfl
  | cons t ts ih =>
    have hinv : (b.add t).buffer.length ≤ (b.add t).capacity := by
      rw [add_buffer_eq, add_capacity_eq]
      simp only [List.length_drop, List.length_append, List.length_singleton]
      omega
    obtain ⟨ih1, ih2⟩ := ih (b.add t) hinv
    refine ⟨?_, by rw [List.foldl_cons, ih2, add_capacity_eq]⟩
    rw [List.foldl_cons, ih1, add_capacity_eq, add_buffer_eq, drop_append_drop,
      List.append_assoc, List.singleton_append]

/-- When every index in `draw` is valid, looking indices up with `get?` keeps
them all and agrees with `getD`. -/
theorem filterMap_getQ_eq_map {β : Type u} [Inhabited β] (l : List β) (draw : List ℕ)
    (h : ∀ i ∈ draw, i < l.length) :
    (draw.filterMap fun i => l.get? i) = draw.map fun i => l.getD i default := by
  induction draw with
  | nil => rfl
  | cons i draw ih =>
    have hi : i < l.length := h i (List.mem_cons_self i draw)
    have hrest : ∀ j ∈ draw, j < l.length := fun j hj => h j (List.mem_cons_of_mem i hj)
    rw [List.filterMap_cons, List.map_cons]
    have hsome : l.get? i = some (l.getD i default) := by
      rw [List.get?_eq_getElem?, List.getElem?_eq_getElem hi,
        List.getD_eq_getElem l default hi]
    rw [hsome, ih hrest]

end ReplayBuffer

theorem getLastD_eq_reverse_headD {α : Type u} (l : List α) (a : α) :
    l.getLastD a = l.reverse.headD a := by
  rw [List.headD_eq_head?_getD, List.head?_reverse, List.getLastD_eq_getLast?]

/-- The loop's list accumulator only grows at the tail: folding from `(a, out)`
yields the same running advantage as folding from `(a, [])`, with the produced
entries appended to `out`. -/
theorem advStep_foldl_accum (gamma lmbda : ℚ) (xs : List ℚ) (a : ℚ) (out : List ℚ) :
    xs.foldl (advStep gamma lmbda) (a, out)
      = ((xs.foldl (advStep gamma lmbda) (a, [])).1,
         out ++ (xs.foldl (advStep gamma lmbda) (a, [])).2) := by
  induction xs generalizing a out with
  | nil => simp
  | cons x xs ih =>
    show xs.foldl (advStep gamma lmbda)
        (gamma * lmbda * a + x, out ++ [gamma * lmbda * a + x])
      = ((xs.foldl (advStep gamma lmbda) (gamma * lmbda * a + x, [gamma * lmbda * a + x])).1,
         out ++ (xs.foldl (advStep gamma lmbda)
            (gamma * lmbda * a + x, [gamma * lmbda * a + x])).2)
    rw [ih (gamma * lmbda * a + x) (out ++ [gamma * lmbda * a + x]),
      ih (gamma * lmbda * a + x) [gamma * lmbda * a + x]]
    simp [List.append_assoc]

/-- After the loop, the running advantage equals the last appended entry. -/
theorem advStep_foldl_fst (gamma lmbda : ℚ) (xs : List ℚ) (a : ℚ) :
    (xs.foldl (advStep gamma lmbda) (a, [])).1
      = ((xs.foldl (advStep gamma lmbda) (a, [])).2).getLastD a := by
  induction xs generalizing a with
  | nil => rfl
  | cons x xs ih =>
    show (xs.foldl (advStep gamma lmbda) (gamma * lmbda * a + x, [gamma * lmbda * a + x])).1
      = ((xs.foldl (advStep gamma lmbda)
          (gamma * lmbda * a + x, [gamma * lmbda * a + x])).2).getLastD a
    rw [advStep_foldl_accum gamma lmbda xs (gamma * lmbda * a + x) [gamma * lmbda * a + x]]
    simp only [List.singleton_append, List.getLastD_cons]
    exact ih (gamma * lmbda * a + x)

theorem compute_advantage_nil (gamma lmbda : ℚ) :
    compute_advantage gamma lmbda [] = [] :=
  rfl

/-- Unfolding `compute_advantage` at the front of the sequence: the head is
the head advantage of the tail, discounted, plus the head delta. -/
theorem compute_advantage_cons (gamma lmbda d : ℚ) (ds : List ℚ) :
    compute_advantage gamma lmbda (d :: ds)
      = (gamma * lmbda * (compute_advantage gamma lmbda ds).headD 0 + d)
          :: compute_advantage gamma lmbda ds := by
  unfold compute_advantage
  rw [List.reverse_cons, List.foldl_append, List.foldl_cons, List.foldl_nil]
  show ((advStep gamma lmbda (ds.reverse.foldl (advStep gamma lmbda) (0, [])) d).2).reverse = _
  rw [advStep]
  rw [List.reverse_append, List.reverse_singleton, List.singleton_append]
  rw [advStep_foldl_fst gamma lmbda ds.reverse 0,
    getLastD_eq_reverse_headD]

theorem compute_advantage_length (gamma lmbda : ℚ) (ds : List ℚ) :
    (compute_advantage gamma lmbda ds).length = ds.length := by
  induction ds with
  | nil => rfl
  | cons d ds ih => rw [compute_advantage_cons, List.length_cons, List.length_cons, ih]

theorem getD_zero_eq_headD {α : Type u} (l : List α) (d : α) :
    l.getD 0 d = l.headD d := by
  cases l <;> rfl

/-- The ten-chunk nested loop over `range 10 × range q` visits the episode
indices `0, 1, …, 10*q - 1` in order. -/
theorem nested_foldl {σ : Type u} (step : σ → ℕ → σ) (m q : ℕ) (init : σ) :
    (List.range m).foldl
        (fun s i => (List.range q).foldl (fun s2 j => step s2 (i * q + j)) s) init
      = (List.range (m * q)).foldl step init := by
  induction m with
  | zero => rw [Nat.zero_mul]; rfl
  | succ m ih =>
    rw [List.range_succ, List.foldl_append, ih, Nat.succ_mul, List.range_add,
      List.foldl_append, List.foldl_map, List.foldl_cons, List.foldl_nil]

theorem foldl_append_singleton {γ : Type u} (g : ℕ → γ) (l : List ℕ) (init : List γ) :
    l.foldl (fun s k => s ++ [g k]) init = init ++ l.map g := by
  induction l generalizing init with
  | nil => simp
  | cons k l ih => rw [List.foldl_cons, ih, List.map_cons, List.append_assoc,
      List.singleton_append]

theorem episodeReturn_foldl (steps : List Transition) (y : ℚ) :
    steps.foldl (fun acc t => acc + t.reward) y = y + episodeReturn steps := by
  induction steps generalizing y with
  | nil => simp [episodeReturn]
  | cons t steps ih =>
    rw [List.foldl_cons, ih]
    have h2 : episodeReturn (t :: steps) = (0 + t.reward) + episodeReturn steps := by
      rw [episodeReturn, List.foldl_cons, ih]
    rw [h2]
    ring

/-- The accumulated return of an off-policy episode does not depend on the
buffer threaded through it. -/
theorem runOffPolicyEpisode_fst (steps : List Transition) (x : ℚ)
    (buf : ReplayBuffer Transition) :
    (runOffPolicyEpisode (x, buf) steps).1 = x + episodeReturn steps := by
  induction steps generalizing x buf with
  | nil => simp [runOffPolicyEpisode, episodeReturn]
  | cons t steps ih =>
    show (runOffPolicyEpisode (x + t.reward, buf.add t) steps).1 = _
    rw [ih]
    have h2 : episodeReturn (t :: steps) = (0 + t.reward) + episodeReturn steps := by
      rw [episodeReturn, List.foldl_cons, episodeReturn_foldl]
    rw [h2]
    ring

/-- Flattened off-policy loop: the first component collects the per-episode
returns in order. -/
theorem offpolicy_flat_fst (env : ℕ → List Transition) (l : List ℕ)
    (init : List ℚ × ReplayBuffer Transition) :
    (l.foldl
        (fun st2 k =>
          ((st2.1 ++ [(runOffPolicyEpisode (0, st2.2) (env k)).1],
            (runOffPolicyEpisode (0, st2.2) (env k)).2))) init).1
      = init.1 ++ l.map fun k => episodeReturn (env k) := by
  induction l generalizing init with
  | nil => simp
  | cons k l ih =>
    rw [List.foldl_cons, ih, List.map_cons]
    rw [runOffPolicyEpisode_fst, zero_add, List.append_assoc, List.singleton_append]

theorem cumsum_length (l : List ℚ) : (cumsum l).length = l.length := by
  simp [cumsum]

theorem cumsum_getElem (l : List ℚ) (i : ℕ) (h : i < (cumsum l).length) :
    (cumsum l)[i] = (l.take (i + 1)).sum := by
  simp [cumsum]

theorem arange_length (start stop step : ℕ) :
    (arange start stop step).length = (stop - start + (step - 1)) / step := by
  simp [arange]

theorem arange_getElem (start stop step : ℕ) (i : ℕ)
    (h : i < (arange start stop step).length) :
    (arange start stop step)[i] = ((start + step * i : ℕ) : ℚ) := by
  simp [arange]

theorem everyOther_length {α : Type u} :
    ∀ l : List α, (everyOther l).length = (l.length + 1) / 2
  | [] => by simp [everyOther]
  | [_] => by simp [everyOther]
  | x :: y :: rest => by
    show (x :: everyOther rest).length = _
    rw [List.length_cons, everyOther_length rest]
    simp only [List.length_cons]
    omega

theorem everyOther_getElem {α : Type u} :
    ∀ (l : List α) (j : ℕ) (h1 : j < (everyOther l).length) (h2 : 2 * j < l.length),
      (everyOther l)[j] = l[2 * j]
  | [], _, h1, _ => by simp [everyOther] at h1
  | [_], 0, _, _ => rfl
  | [_], _ + 1, _, h2 => by simp at h2
  | _ :: _ :: _, 0, _, _ => rfl
  | x :: y :: rest, j + 1, h1, h2 => by
    have h1' : j < (everyOther rest).length := by
      rw [everyOther_length] at h1 ⊢
      simp only [List.length_cons] at h1
      omega
    have h2' : 2 * j < rest.length := by
      simp only [List.length_cons] at h2
      omega
    show (x :: everyOther rest)[j + 1] = (x :: y :: rest)[2 * j + 1 + 1]
    rw [List.getElem_cons_succ, List.getElem_cons_succ, List.getElem_cons_succ]
    exact everyOther_getElem rest j h1' h2'

/-- The `begin` (and, applied to the reversed list, `end`) edge computation for
an odd window: each entry is the sum of the first `2j+1` elements divided by
`2j+1`. -/
theorem edge_div_eq (b : List ℚ) (w : ℕ) (hodd : w % 2 = 1) (h3 : 3 ≤ w)
    (hw : w - 1 ≤ b.length) :
    broadcastDiv (everyOther (cumsum (b.take (w - 1)))) (arange 1 (w - 1) 2)
      = some ((List.range ((w - 1) / 2)).map fun j =>
          (b.take (2 * j + 1)).sum / ((2 * j + 1 : ℕ) : ℚ)) := by
  have hxlen : (everyOther (cumsum (b.take (w - 1)))).length = (w - 1) / 2 := by
    rw [everyOther_length, cumsum_length, List.length_take, Nat.min_eq_left hw]
    omega
  have hylen : (arange 1 (w - 1) 2).length = (w - 1) / 2 := by
    rw [arange_length]
    omega
  rw [broadcastDiv, if_pos (by rw [hxlen, hylen])]
  refine congrArg some (List.ext_getElem ?_ ?_)
  · rw [List.length_zipWith, hxlen, hylen, List.length_map, List.length_range]
    omega
  · intro i h1 h2
    have hi : i < (w - 1) / 2 := by
      rw [List.length_zipWith, hxlen, hylen] at h1
      omega
    have h2i : 2 * i < (cumsum (b.take (w - 1))).length := by
      rw [cumsum_length, List.length_take, Nat.min_eq_left hw]
      omega
    have h1i : i < (everyOther (cumsum (b.take (w - 1)))).length := by
      rw [hxlen]; exact hi
    rw [List.getElem_zipWith, List.getElem_map, List.getElem_range,
      everyOther_getElem _ i h1i h2i, cumsum_getElem, arange_getElem,
      List.take_take, Nat.min_eq_left (by omega : 2 * i + 1 ≤ w - 1),
      show 1 + 2 * i = 2 * i + 1 from Nat.add_comm 1 (2 * i)]

/-- The interior (`middle`) computation: cumulative-sum differencing yields
the `window`-wide window means. -/
theorem middle_eq (a : List ℚ) (w : ℕ) (hw : w ≤ a.length + 1) :
    List.zipWith (fun x y => (x - y) / (w : ℚ))
        ((cumsum (0 :: a)).drop w)
        ((cumsum (0 :: a)).take ((cumsum (0 :: a)).length - w))
      = (List.range (a.length + 1 - w)).map fun i =>
          ((a.drop i).take w).sum / (w : ℚ) := by
  refine List.ext_getElem ?_ ?_
  · rw [List.length_zipWith, List.length_drop, List.length_take, cumsum_length,
      List.length_cons, List.length_map, List.length_range]
    omega
  · intro i h1 h2
    have hdrop : i < ((cumsum (0 :: a)).drop w).length := by
      rw [List.length_drop, cumsum_length, List.length_cons]
      rw [List.length_map, List.length_range] at h2
      omega
    have htake : i < ((cumsum (0 :: a)).take ((cumsum (0 :: a)).length - w)).length := by
      rw [List.length_take, cumsum_length, List.length_cons]
      rw [List.length_map, List.length_range] at h2
      omega
    rw [List.getElem_zipWith, List.getElem_map, List.getElem_range,
      List.getElem_drop, List.getElem_take, cumsum_getElem, cumsum_getElem,
      List.take_succ_cons, List.take_succ_cons, List.sum_cons, List.sum_cons,
      zero_add, zero_add, Nat.add_comm w i, List.take_add a i w, List.sum_append]
    ring

/-- For an odd window `3 ≤ w ≤ n`, `moving_average` computes exactly the
edge-corrected smoothing formula of the spec. -/
theorem moving_average_eq_spec (a : List ℚ) (w : ℕ) (hodd : w % 2 = 1)
    (h3 : 3 ≤ w) (hw : w ≤ a.length) :
    moving_average a w = some (movingAverageSpec a w) := by
  have hb := edge_div_eq a w hodd h3 (by omega)
  have hrev : (a.drop (a.length - (w - 1))).reverse = a.reverse.take (w - 1) := by
    rw [List.reverse_drop]
    congr 1
    omega
  have he := edge_div_eq a.reverse w hodd h3 (by rw [List.length_reverse]; omega)
  rw [moving_average, hb, Option.some_bind, hrev, he, Option.some_bind,
    middle_eq a w (by omega), movingAverageSpec]

theorem movingAverageSpec_length (a : List ℚ) (w : ℕ) (hodd : w % 2 = 1)
    (h3 : 3 ≤ w) (hw : w ≤ a.length) :
    (movingAverageSpec a w).length = a.length := by
  rw [movingAverageSpec]
  simp only [List.length_append, List.length_map, List.length_range,
    List.length_reverse]
  omega

theorem train_on_policy_eq (env : ℕ → List Transition) (n : ℕ) :
    train_on_policy_agent env n
      = (List.range (10 * (n / 10))).map fun k => episodeReturn (env k) := by
  have h := nested_foldl (fun (s : List ℚ) k => s ++ [episodeReturn (env k)]) 10 (n / 10) []
  calc train_on_policy_agent env n
      = (List.range (10 * (n / 10))).foldl (fun s k => s ++ [episodeReturn (env k)]) [] := h
    _ = _ := by rw [foldl_append_singleton, List.nil_append]

theorem train_off_policy_fst (env : ℕ → List Transition) (n : ℕ)
    (replay_buffer : ReplayBuffer Transition) (minimal_size batch_size : ℕ) :
    (train_off_policy_agent env n replay_buffer minimal_size batch_size).1
      = (List.range (10 * (n / 10))).map fun k => episodeReturn (env k) := by
  have h := nested_foldl
    (fun (st2 : List ℚ × ReplayBuffer Transition) k =>
      ((st2.1 ++ [(runOffPolicyEpisode (0, st2.2) (env k)).1],
        (runOffPolicyEpisode (0, st2.2) (env k)).2))) 10 (n / 10) ([], replay_buffer)
  have h1 : train_off_policy_agent env n replay_buffer minimal_size batch_size
      = (List.range (10 * (n / 10))).foldl
          (fun st2 k =>
            ((st2.1 ++ [(runOffPolicyEpisode (0, st2.2) (env k)).1],
              (runOffPolicyEpisode (0, st2.2) (env k)).2))) ([], replay_buffer) := h
  rw [h1, offpolicy_flat_fst env, List.nil_append]

/-! ## Claim theorems -/

/-- C1: for every capacity `C > 0` and every sequence of `N > C`
transitions added after construction, `size()` returns `C` and the retained
transitions are exactly the last `C` added, in insertion order. -/
theorem replay_buffer_fifo {α : Type u} (C : ℕ) (hC : 0 < C) (ts : List α)
    (hN : C < ts.length) :
    (ts.foldl ReplayBuffer.add ⟨C, []⟩).size = C ∧
    (ts.foldl ReplayBuffer.add ⟨C, []⟩).buffer = ts.drop (ts.length - C) := by
  obtain ⟨h1, _⟩ := ReplayBuffer.foldl_add_buffer ts ⟨C, []⟩ (by simp)
  have hb : (ts.foldl ReplayBuffer.add ⟨C, []⟩).buffer = ts.drop (ts.length - C) := by
    simpa using h1
  refine ⟨?_, hb⟩
  rw [ReplayBuffer.size, hb, List.length_drop]
  omega

theorem replay_buffer_fifo_witness :
    (0 < 2 ∧ 2 < ([1, 2, 3] : List ℕ).length) ∧
    (([1, 2, 3] : List ℕ).foldl ReplayBuffer.add ⟨2, []⟩).size = 2 ∧
    (([1, 2, 3] : List ℕ).foldl ReplayBuffer.add ⟨2, []⟩).buffer = [2, 3] := by
  have h := replay_buffer_fifo 2 (by decide) ([1, 2, 3] : List ℕ) (by decide)
  exact ⟨⟨by decide, by decide⟩, h.1, by rw [h.2]; decide⟩

/-- C2: `compute_advantage` returns a sequence of the input's length obeying
the backward recursion `out[i] = td_delta[i] + gamma * lmbda * out[i+1]` with
`out[n-1] = td_delta[n-1]`; an empty input yields an empty output and a
single-element input `[d]` yields `[d]`. -/
theorem compute_advantage_recurrence (gamma lmbda : ℚ) (td_delta : List ℚ) :
    (compute_advantage gamma lmbda td_delta).length = td_delta.length ∧
    (∀ i : ℕ, i + 1 < td_delta.length →
      (compute_advantage gamma lmbda td_delta).getD i 0
        = td_delta.getD i 0
            + gamma * lmbda * (compute_advantage gamma lmbda td_delta).getD (i + 1) 0) ∧
    (∀ i : ℕ, i + 1 = td_delta.length →
      (compute_advantage gamma lmbda td_delta).getD i 0 = td_delta.getD i 0) ∧
    compute_advantage gamma lmbda [] = [] ∧
    (∀ x : ℚ, compute_advantage gamma lmbda [x] = [x]) := by
  refine ⟨compute_advantage_length gamma lmbda td_delta, ?_, ?_, rfl, fun x => ?_⟩
  · induction td_delta with
    | nil => intro i hi; simp at hi
    | cons d ds ih =>
      intro i hi
      rw [compute_advantage_cons]
      cases i with
      | zero =>
        have hds : ds ≠ [] := by
          intro hnil
          rw [hnil] at hi
          simp at hi
        rw [List.getD_cons_zero, List.getD_cons_zero, List.getD_cons_succ,
          getD_zero_eq_headD]
        ring
      | succ j =>
        rw [List.getD_cons_succ, List.getD_cons_succ, List.getD_cons_succ]
        exact ih j (by simpa using hi)
  · induction td_delta with
    | nil => intro i hi; simp at hi
    | cons d ds ih =>
      intro i hi
      rw [compute_advantage_cons]
      cases i with
      | zero =>
        have hds : ds = [] := by
          have : ds.length = 0 := by simpa using hi.symm
          exact List.length_eq_zero.mp this
        subst hds
        rw [List.getD_cons_zero, List.getD_cons_zero]
        show gamma * lmbda * ([] : List ℚ).headD 0 + d = d
        simp
      | succ j =>
        rw [List.getD_cons_succ, List.getD_cons_succ]
        exact ih j (by simpa using hi)
  · rw [compute_advantage_cons]
    show (gamma * lmbda * ([] : List ℚ).headD 0 + x) :: [] = [x]
    simp

theorem compute_advantage_recurrence_witness :
    (1 : ℕ) + 1 < ([1, 2, 3] : List ℚ).length ∧
    (compute_advantage (9/10) (19/20) [1, 2, 3]).getD 1 0
      = ([1, 2, 3] : List ℚ).getD 1 0
          + (9/10) * (19/20) * (compute_advantage (9/10) (19/20) [1, 2, 3]).getD 2 0 :=
  ⟨by decide, (compute_advantage_recurrence (9/10) (19/20) [1, 2, 3]).2.1 1 (by decide)⟩

/-- C3: a draw of `k > 0` distinct valid indices from a buffer of size ≥ `k`
yields exactly `k` transitions, each an element of the buffer, decomposed into
five columns aligned with the drawn slots. -/
theorem sample_spec (b : ReplayBuffer Transition) (k : ℕ) (draw : List ℕ)
    (hk : 0 < k) (hsize : k ≤ b.size) (hlen : draw.length = k)
    (hnodup : draw.Nodup) (hvalid : ∀ i ∈ draw, i < b.size) :
    ∃ ts : List Transition,
      b.sample k draw
        = some (ts.map Transition.state, ts.map Transition.action,
            ts.map Transition.reward, ts.map Transition.next_state,
            ts.map Transition.done) ∧
      ts.length = k ∧
      (∀ t ∈ ts, t ∈ b.buffer) ∧
      (∀ j : ℕ, j < k →
        ts.getD j default = b.buffer.getD (draw.getD j 0) default) := by
  have hts : b.sampledTransitions draw = draw.map fun i => b.buffer.getD i default :=
    ReplayBuffer.filterMap_getQ_eq_map b.buffer draw hvalid
  refine ⟨draw.map fun i => b.buffer.getD i default, ?_, ?_, ?_, ?_⟩
  · have hlt : ¬ b.buffer.length < k := not_lt.mpr hsize
    have hne : (List.map (fun i => b.buffer.getD i default) draw).isEmpty = false := by
      rw [List.isEmpty_eq_false, ← List.length_pos, List.length_map, hlen]
      exact hk
    simp only [ReplayBuffer.sample, hts, if_neg hlt, hne, Bool.false_eq_true, if_false]
  · rw [List.length_map, hlen]
  · intro t ht
    obtain ⟨i, hi, rfl⟩ := List.mem_map.mp ht
    have hilen : i < b.buffer.length := hvalid i hi
    rw [List.getD_eq_getElem b.buffer default hilen]
    exact List.getElem_mem hilen
  · intro j hj
    have hj' : j < draw.length := by rw [hlen]; exact hj
    have hmap : j < (draw.map fun i => b.buffer.getD i default).length := by
      rw [List.length_map]; exact hj'
    rw [List.getD_eq_getElem _ default hmap, List.getElem_map,
      List.getD_eq_getElem draw 0 hj']

theorem sample_spec_witness :
    ∃ ts : List Transition,
      (⟨3, [⟨1, 1, 1, 1, false⟩, ⟨2, 2, 2, 2, false⟩, ⟨3, 3, 3, 3, true⟩]⟩ :
          ReplayBuffer Transition).sample 2 [2, 0]
        = some (ts.map Transition.state, ts.map Transition.action,
            ts.map Transition.reward, ts.map Transition.next_state,
            ts.map Transition.done) ∧
      ts.length = 2 ∧
      (∀ t ∈ ts, t ∈ (⟨3, [⟨1, 1, 1, 1, false⟩, ⟨2, 2, 2, 2, false⟩,
          ⟨3, 3, 3, 3, true⟩]⟩ : ReplayBuffer Transition).buffer) ∧
      (∀ j : ℕ, j < 2 →
        ts.getD j default
          = (⟨3, [⟨1, 1, 1, 1, false⟩, ⟨2, 2, 2, 2, false⟩, ⟨3, 3, 3, 3, true⟩]⟩ :
              ReplayBuffer Transition).buffer.getD ([2, 0].getD j 0) default) :=
  sample_spec _ 2 [2, 0] (by decide) (by decide) rfl (by decide) (by decide)

/-- C5 counterexample: constructing with capacity `0` does not fail —
`deque(maxlen=0)` is accepted — refuting the claim that every capacity ≤ 0
is rejected. -/
theorem init_zero_succeeds :
    (0 : ℤ) ≤ 0 ∧ (ReplayBuffer.init 0 : Option (ReplayBuffer Transition)) ≠ none := by
  decide

/-- C5 amended: construction fails (`ValueError`) exactly for negative
capacity; every capacity ≥ 0 — including 0 — succeeds and yields an empty
buffer. -/
theorem init_spec {α : Type u} (capacity : ℤ) :
    (capacity < 0 → (ReplayBuffer.init capacity : Option (ReplayBuffer α)) = none) ∧
    (0 ≤ capacity →
      (ReplayBuffer.init capacity : Option (ReplayBuffer α))
        = some ⟨capacity.toNat, []⟩) := by
  refine ⟨fun h => ?_, fun h => ?_⟩
  · simp only [ReplayBuffer.init, if_pos h]
  · simp only [ReplayBuffer.init, if_neg (not_lt.mpr h)]

theorem init_spec_witness :
    ((-1 : ℤ) < 0 ∧ (ReplayBuffer.init (-1) : Option (ReplayBuffer Transition)) = none) ∧
    ((0 : ℤ) ≤ 5 ∧ (ReplayBuffer.init 5 : Option (ReplayBuffer Transition))
        = some ⟨(5 : ℤ).toNat, []⟩) :=
  ⟨⟨by decide, (init_spec (-1)).1 (by decide)⟩,
   ⟨by decide, (init_spec 5).2 (by decide)⟩⟩

/-- C6: `sample` with `batch_size > size()` fails (the `ValueError` of
`random.sample`) and the buffer is unchanged by the failed call. -/
theorem sample_insufficient (b : ReplayBuffer Transition) (batch_size : ℕ)
    (draw : List ℕ) (h : b.size < batch_size) :
    b.sample batch_size draw = none ∧ (b.sampleS batch_size draw).2 = b := by
  have h' : b.buffer.length < batch_size := h
  exact ⟨by simp only [ReplayBuffer.sample, if_pos h'], rfl⟩

theorem sample_insufficient_witness :
    (⟨2, [default]⟩ : ReplayBuffer Transition).size < 5 ∧
    (⟨2, [default]⟩ : ReplayBuffer Transition).sample 5 [] = none :=
  ⟨by decide, (sample_insufficient ⟨2, [default]⟩ 5 [] (by decide)).1⟩

/-- C9: `sample` and `size` leave the retained contents unchanged; only `add`
mutates the buffer. -/
theorem buffer_reads_pure :
    (∀ (b : ReplayBuffer Transition) (k : ℕ) (draw : List ℕ),
      (b.sampleS k draw).2 = b) ∧
    (∀ b : ReplayBuffer Transition, b.sizeS.2 = b) ∧
    (∃ (b : ReplayBuffer Transition) (t : Transition), (b.add t).buffer ≠ b.buffer) :=
  ⟨fun _ _ _ => rfl, fun _ => rfl, ⟨⟨1, []⟩, default, by decide⟩⟩

/-- C10: when `gamma * lmbda = 0` the estimator is the identity on the TD
errors. -/
theorem compute_advantage_identity (gamma lmbda : ℚ) (h : gamma * lmbda = 0)
    (td_delta : List ℚ) :
    compute_advantage gamma lmbda td_delta = td_delta := by
  induction td_delta with
  | nil => rfl
  | cons d ds ih => rw [compute_advantage_cons, ih, h, zero_mul, zero_add]

theorem compute_advantage_identity_witness :
    (0 : ℚ) * (19/20) = 0 ∧ compute_advantage 0 (19/20) [5, 7] = [5, 7] :=
  ⟨by norm_num, compute_advantage_identity 0 (19/20) (by norm_num) [5, 7]⟩

/-- C8 counterexample: with `num_episodes = 5` both drivers run
`10 * int(5/10) = 0` episodes and return an empty list, not one of length 5. -/
theorem train_episode_count_counterexample :
    (train_on_policy_agent (fun _ => [⟨0, 0, 1, 0, true⟩]) 5).length ≠ 5 ∧
    (train_off_policy_agent (fun _ => [⟨0, 0, 1, 0, true⟩]) 5 ⟨10, []⟩ 0 1).1.length ≠ 5 := by
  decide

/-- C8 amended: both drivers run exactly `10 * (num_episodes / 10)` episodes
(integer division) and return the ordered sequence of per-episode total
returns, one entry per executed episode; when `num_episodes` is divisible by
10 this is exactly `num_episodes` entries, as the claim states. -/
theorem train_agents_episode_returns (env : ℕ → List Transition) (num_episodes : ℕ)
    (replay_buffer : ReplayBuffer Transition) (minimal_size batch_size : ℕ) :
    train_on_policy_agent env num_episodes
      = (List.range (10 * (num_episodes / 10))).map (fun k => episodeReturn (env k)) ∧
    (train_off_policy_agent env num_episodes replay_buffer minimal_size batch_size).1
      = (List.range (10 * (num_episodes / 10))).map (fun k => episodeReturn (env k)) ∧
    (10 ∣ num_episodes →
      (train_on_policy_agent env num_episodes).length = num_episodes ∧
      (train_off_policy_agent env num_episodes replay_buffer minimal_size
          batch_size).1.length = num_episodes) := by
  refine ⟨train_on_policy_eq env num_episodes,
    train_off_policy_fst env num_episodes replay_buffer minimal_size batch_size,
    fun hd => ?_⟩
  have hn : 10 * (num_episodes / 10) = num_episodes := Nat.mul_div_cancel' hd
  constructor
  · rw [train_on_policy_eq, List.length_map, List.length_range, hn]
  · rw [train_off_policy_fst, List.length_map, List.length_range, hn]

/-- C4 counterexample: `window_size = 2` satisfies `2 ≤ window_size ≤
length(values)` but `moving_average([1,2,3], 2)` returns `[3/2, 5/2]`, a
sequence of length 2 ≠ 3 (the edge parts are empty because
`np.arange(1, 1, 2)` is empty). -/
theorem moving_average_len_counterexample :
    2 ≤ 2 ∧ 2 ≤ ([1, 2, 3] : List ℚ).length ∧
    moving_average [1, 2, 3] 2 = some [3/2, 5/2] ∧
    ([3/2, 5/2] : List ℚ).length ≠ ([1, 2, 3] : List ℚ).length := by
  refine ⟨le_refl 2, by norm_num, ?_, by norm_num⟩
  norm_num [moving_average, broadcastDiv, cumsum, arange, everyOther,
    List.range_succ, List.range_zero]

/-- C4 amended: for every odd `window_size` with `3 ≤ window_size ≤
length(values)`, `moving_average` returns a sequence of the same length as
its input (even window sizes yield a different length or a broadcast error). -/
theorem moving_average_length_odd (a : List ℚ) (window_size : ℕ)
    (hodd : window_size % 2 = 1) (h3 : 3 ≤ window_size) (hw : window_size ≤ a.length) :
    ∃ out : List ℚ, moving_average a window_size = some out ∧ out.length = a.length :=
  ⟨movingAverageSpec a window_size, moving_average_eq_spec a window_size hodd h3 hw,
    movingAverageSpec_length a window_size hodd h3 hw⟩

theorem moving_average_length_odd_witness :
    (3 % 2 = 1 ∧ 3 ≤ 3 ∧ 3 ≤ ([1, 2, 3, 4, 5] : List ℚ).length) ∧
    ∃ out : List ℚ, moving_average [1, 2, 3, 4, 5] 3 = some out ∧
      out.length = ([1, 2, 3, 4, 5] : List ℚ).length :=
  ⟨⟨rfl, by norm_num, by norm_num⟩,
    moving_average_length_odd [1, 2, 3, 4, 5] 3 rfl (by norm_num) (by norm_num)⟩

/-- C7 counterexample: at the even window `4` the code divides the second
leading-edge entry by 1 (the broadcast `r = [1]`), not by 3, so the output
`[0, 3, 3/4, 3, 0]` — which is not even of the input's length — differs from
the claimed odd-divisor formula `[0, 3/4, 0]`. -/
theorem moving_average_edge_counterexample :
    moving_average [0, 3, 0, 0] 4 = some [0, 3, 3/4, 3, 0] ∧
    movingAverageSpec [0, 3, 0, 0] 4 = [0, 3/4, 0] ∧
    moving_average [0, 3, 0, 0] 4 ≠ some (movingAverageSpec [0, 3, 0, 0] 4) := by
  have h1 : moving_average [0, 3, 0, 0] 4 = some [0, 3, 3/4, 3, 0] := by
    norm_num [moving_average, broadcastDiv, cumsum, arange, everyOther,
      List.range_succ, List.range_zero]
  have h2 : movingAverageSpec [0, 3, 0, 0] 4 = [0, 3/4, 0] := by
    norm_num [movingAverageSpec, List.range_succ, List.range_zero]
  refine ⟨h1, h2, ?_⟩
  rw [h1, h2]
  intro h
  exact absurd (Option.some_inj.mp h) (by norm_num)

/-- C7 amended: for every odd `window_size` with `3 ≤ window_size ≤
length(a)`, the leading edge outputs are the cumulative sums of the first
`1, 3, 5, …` elements divided by those odd counts, the trailing edge is the
mirror computed from the reversed sequence, and the interior outputs are the
`window_size`-wide window means obtained by cumulative-sum differencing
(see `movingAverageSpec`). -/
theorem moving_average_edge_formula (a : List ℚ) (window_size : ℕ)
    (hodd : window_size % 2 = 1) (h3 : 3 ≤ window_size)
    (hw : window_size ≤ a.length) :
    moving_average a window_size = some (movingAverageSpec a window_size) :=
  moving_average_eq_spec a window_size hodd h3 hw

theorem moving_average_edge_formula_witness :
    5 % 2 = 1 ∧
    moving_average [1, 2, 3, 4, 5] 5 = some (movingAverageSpec [1, 2, 3, 4, 5] 5) :=
  ⟨rfl, moving_average_edge_formula [1, 2, 3, 4, 5] 5 rfl (by norm_num) (by norm_num)⟩

theorem train_agents_episode_returns_witness :
    (10 ∣ 20) ∧
    (train_on_policy_agent (fun _ => [⟨0, 0, 1, 0, true⟩]) 20).length = 20 ∧
    (train_off_policy_agent (fun _ => [⟨0, 0, 1, 0, true⟩]) 20 ⟨10, []⟩ 0 1).1.length
      = 20 :=
  ⟨by decide,
    (train_agents_episode_returns (fun _ => [⟨0, 0, 1, 0, true⟩]) 20 ⟨10, []⟩ 0 1).2.2
      (by decide)⟩
